import Mathlib

/-!
Shallow embedding of the TSMServerShell-Deno routing module (`src/mod.ts`).

The embedding models the route table, the registration methods
(`get`/`post`/`options`/`put`/`delete`/`any`), the per-request dispatch loop of
`listen`, the middleware hook (`use`), the static-asset binder (`useStatic`)
and the extension-to-content-type resolver (`MIMEFromExt`).

Conventions of the embedding:
* JavaScript strings are Lean `String`s; `String.split`, `Array.join`,
  `replaceAll('\\', '/')`, `toUpperCase`/`toLowerCase` are modelled by
  executable character-level functions below (the source only ever splits and
  replaces on single-character separators, and HTTP methods are ASCII).
* The opaque `Deno.ServeHandlerInfo` value is passed through unmodified and
  never inspected by the module, so it is dropped from handler signatures;
  `Promise` results are collapsed to their resolved values (the module never
  observes an unresolved promise).
* Mutation of `this.routes` plus `throw` is rendered as a function returning
  `Option RouteAlreadyBoundError × ServerShell`: on an error the returned
  shell is the receiver unchanged, exactly as a thrown exception leaves the
  mutated-in-place object in the source.
* The side effects of a request (the middleware call and each route-callback
  invocation) are recorded as an explicit trace of `Event`s in program order.
* The filesystem seen by `useStatic` is a pure `FsEntry` tree whose list
  order is the `Deno.readDirSync` enumeration order; reading a file's bytes
  is recorded as a read event naming the joined filesystem path.
* `join` from the Deno path library is modelled by `posixJoin` below,
  following the documented posix `join`/`normalize` behaviour (segment
  splitting, dropping empty and `.` segments, resolving `..`).
-/

namespace TSMShell

/-- Splits a character list on a separator character; models the behaviour of
JavaScript `String.prototype.split` with a single-character separator
(always returns at least one piece, keeps empty pieces). -/
def splitOnChar (c : Char) : List Char → List (List Char)
  | [] => [[]]
  | x :: xs =>
    match splitOnChar c xs with
    | [] => [[]]
    | s :: ss => if x = c then [] :: s :: ss else (x :: s) :: ss

/-- Joins a list of strings with a separator; models
`Array.prototype.join` (empty list joins to the empty string). -/
def joinWith (sep : String) : List String → String
  | [] => ""
  | [s] => s
  | s :: rest => s ++ sep ++ joinWith sep rest

/-- Models `String.prototype.toUpperCase` (faithful on the ASCII strings the
module applies it to: HTTP method names). -/
def toUpperCase (s : String) : String := ⟨s.data.map Char.toUpper⟩

/-- Models `String.prototype.toLowerCase` (faithful on the ASCII strings the
module applies it to: HTTP method names). -/
def toLowerCase (s : String) : String := ⟨s.data.map Char.toLower⟩

/-- Models `String.prototype.replaceAll('\\', '/')` as used in `useStatic`. -/
def replaceBackslashes (s : String) : String :=
  ⟨s.data.map (fun c => if c = '\\' then '/' else c)⟩

/-- An inbound request as the dispatcher sees it: the HTTP method string and
the pathname extracted from the request URL (`new URL(req.url).pathname`). -/
structure Request where
  method : String
  path : String
deriving DecidableEq, Repr

/-- The `init` part of a `ResponseConstructor` (`ResponseInit`): every
construction in the module supplies a header map and a status. -/
structure RespInit where
  headers : List (String × String)
  status : Nat
deriving DecidableEq, Repr

/-- The `ResponseConstructor` interface of `mod.ts`: an optional body and an
optional `ResponseInit`. -/
structure ResponseConstructor where
  body : Option String
  init : Option RespInit
deriving DecidableEq, Repr

/-- A route callback: `(req, info) => Promise<ResponseConstructor>` with the
opaque `info` dropped and the promise collapsed to its resolved value. -/
def Handler : Type := Request → ResponseConstructor

/-- The `Route` class of `mod.ts`: a path, a method string and a callback. -/
structure Route where
  path : String
  method : String
  callback : Handler

/-- `Route.equals` from `mod.ts`: exact string equality on both the path and
the method. -/
def Route.equals (route : Route) (path method : String) : Bool :=
  if route.path == path && route.method == method then true else false

/-- The `RouteAlreadyBoundError` thrown on duplicate registration, carrying
the offending route path. -/
structure RouteAlreadyBoundError where
  route : String
deriving DecidableEq, Repr

/-- The `ServerShell` class: the insertion-ordered route table and the single
middleware reference.  The `config` field (host name and port) is consumed
only by the host listener `Deno.serve` and is outside the model. -/
structure ServerShell where
  routes : List Route
  middleware : Request → Unit

/-- A freshly constructed `ServerShell`: field initialisers give an empty
route table and a no-op middleware `() => {}`. -/
def ServerShell.new : ServerShell :=
  { routes := [], middleware := fun _ => () }

/-- `ServerShell.get`: throws `RouteAlreadyBoundError` when some existing
route has the same path and method `GET` or `ANY`, otherwise pushes a new
`GET` route at the end of the table. -/
def ServerShell.get (s : ServerShell) (path : String) (listener : Handler) :
    Option RouteAlreadyBoundError × ServerShell :=
  if s.routes.any (fun route => route.path == path &&
      (route.method == "GET" || route.method == "ANY")) then
    (some { route := path }, s)
  else
    (none, { s with routes := s.routes ++ [{ path := path, method := "GET", callback := listener }] })

/-- `ServerShell.post`: as `get` but for method `POST`. -/
def ServerShell.post (s : ServerShell) (path : String) (listener : Handler) :
    Option RouteAlreadyBoundError × ServerShell :=
  if s.routes.any (fun route => route.path == path &&
      (route.method == "POST" || route.method == "ANY")) then
    (some { route := path }, s)
  else
    (none, { s with routes := s.routes ++ [{ path := path, method := "POST", callback := listener }] })

/-- `ServerShell.options`: as `get` but for method `OPTIONS`. -/
def ServerShell.options (s : ServerShell) (path : String) (listener : Handler) :
    Option RouteAlreadyBoundError × ServerShell :=
  if s.routes.any (fun route => route.path == path &&
      (route.method == "OPTIONS" || route.method == "ANY")) then
    (some { route := path }, s)
  else
    (none, { s with routes := s.routes ++ [{ path := path, method := "OPTIONS", callback := listener }] })

/-- `ServerShell.put`: as `get` but for method `PUT`. -/
def ServerShell.put (s : ServerShell) (path : String) (listener : Handler) :
    Option RouteAlreadyBoundError × ServerShell :=
  if s.routes.any (fun route => route.path == path &&
      (route.method == "PUT" || route.method == "ANY")) then
    (some { route := path }, s)
  else
    (none, { s with routes := s.routes ++ [{ path := path, method := "PUT", callback := listener }] })

/-- `ServerShell.delete`: as `get` but for method `DELETE`. -/
def ServerShell.delete (s : ServerShell) (path : String) (listener : Handler) :
    Option RouteAlreadyBoundError × ServerShell :=
  if s.routes.any (fun route => route.path == path &&
      (route.method == "DELETE" || route.method == "ANY")) then
    (some { route := path }, s)
  else
    (none, { s with routes := s.routes ++ [{ path := path, method := "DELETE", callback := listener }] })

/-- `ServerShell.any`: throws when some existing route has the same path
(whatever its method), otherwise pushes a new `ANY` route. -/
def ServerShell.any (s : ServerShell) (path : String) (listener : Handler) :
    Option RouteAlreadyBoundError × ServerShell :=
  if s.routes.any (fun route => route.path == path) then
    (some { route := path }, s)
  else
    (none, { s with routes := s.routes ++ [{ path := path, method := "ANY", callback := listener }] })

/-- `ServerShell.use`: replaces the middleware reference wholesale. -/
def ServerShell.use (s : ServerShell) (middleware : Request → Unit) : ServerShell :=
  { s with middleware := middleware }

/-- Observable per-request effects, in program order: the middleware call and
each route-callback invocation (identified by the route's path and method). -/
inductive Event where
  | middlewareCall : Event
  | callbackCall (path method : String) : Event
deriving DecidableEq, Repr

/-- The 404 payload that `listen` initialises `returnvalue` with: body
`Cannot <lowercased method> <pathname>`, content type `text/html`,
status `404`. -/
def defaultPayload (method pathname : String) : ResponseConstructor :=
  { body := some ("Cannot " ++ toLowerCase method ++ " " ++ pathname)
  , init := some { headers := [("Content-Type", "text/html")], status := 404 } }

/-- One iteration of the `for (const route of this.routes)` loop in `listen`:
on `route.equals(pathname, method)`, or on a path match with method `ANY`,
the callback is awaited and its payload overwrites the accumulator. -/
def dispatchStep (req : Request) (pathname method : String)
    (acc : ResponseConstructor × List Event) (route : Route) :
    ResponseConstructor × List Event :=
  if route.equals pathname method then
    (route.callback req, acc.2 ++ [Event.callbackCall route.path route.method])
  else if route.path == pathname && route.method == "ANY" then
    (route.callback req, acc.2 ++ [Event.callbackCall route.path route.method])
  else acc

/-- The per-request handler installed by `listen`: uppercases the method,
calls the middleware (result discarded), folds the route loop over the
default 404 payload, and returns the final payload together with the trace
of effects in program order. -/
def dispatch (s : ServerShell) (req : Request) : ResponseConstructor × List Event :=
  let pathname := req.path
  let method := toUpperCase req.method
  let _ := s.middleware req
  let res := s.routes.foldl (dispatchStep req pathname method)
    (defaultPayload method pathname, [])
  (res.1, Event.middlewareCall :: res.2)

/-- `MIMEFromExt` from `mod.ts`: the switch over the extension string, with
default `text/plain` (the diagnostic `console.log` in the default branch is
a side effect outside the model). -/
def MIMEFromExt (extension : String) : String :=
  if extension == "html" || extension == "htm" then "text/html"
  else if extension == "css" then "text/css"
  else if extension == "js" || extension == "mjs" then "text/javascript"
  else if extension == "txt" then "text/plain"
  else if extension == "svg" then "image/svg+xml"
  else if extension == "apng" then "image/apng"
  else if extension == "png" then "image/png"
  else if extension == "gif" then "image/gif"
  else if extension == "jpg" || extension == "jpeg" then "image/jpeg"
  else if extension == "ico" then "image/vnd.microsoft.icon"
  else if extension == "mp4" then "video/mp4"
  else if extension == "mpeg" then "video/mpeg"
  else if extension == "ogv" then "video/ogg"
  else if extension == "mp3" then "audio/mpeg"
  else if extension == "oga" then "audio/ogg"
  else if extension == "json" then "application/json"
  else if extension == "xml" then "application/xml"
  else if extension == "zip" then "application/zip"
  else if extension == "7z" then "application/x-7z-compressed"
  else if extension == "rar" then "application/vnd.rar"
  else if extension == "tar" then "application/x-tar"
  else if extension == "gz" then "application/gzip"
  else if extension == "php" then "application/x-httpd-php"
  else if extension == "pdf" then "application/pdf"
  else if extension == "sh" then "application/x-sh"
  else if extension == "otf" then "font/otf"
  else if extension == "ttf" then "font/ttf"
  else "text/plain"

/-- Splits a string on a separator character, as a list of strings. -/
def splitStr (c : Char) (s : String) : List String :=
  (splitOnChar c s.data).map (fun l => ⟨l⟩)

/-- The segments of a path string: its pieces between `/` separators. -/
def segsOf (s : String) : List String := splitStr '/' s

/-- One step of posix path normalisation over the accumulated segment list:
empty and `.` segments are dropped, `..` pops the previous segment (or is kept
when nothing can be popped and the path is relative), any other segment is
appended.  Models `normalizeString` of the Deno std posix path library. -/
def normStep (allowAboveRoot : Bool) (acc : List String) (seg : String) : List String :=
  if seg == "" || seg == "." then acc
  else if seg == ".." then
    if acc ≠ [] ∧ acc.getLast? ≠ some ".." then acc.dropLast
    else if allowAboveRoot then acc ++ [".."]
    else acc
  else acc ++ [seg]

/-- Posix `normalize` of the Deno std path library: resolves `.` and `..`
segments, collapses separator runs, preserves absoluteness and a trailing
separator. -/
def normalize (path : String) : String :=
  if path == "" then "."
  else
    let isAbsolute := path.data.head? == some '/'
    let trailingSep := path.data.getLast? == some '/'
    let segs := (segsOf path).foldl (normStep (!isAbsolute)) []
    let core := joinWith "/" segs
    let core := if core == "" && !isAbsolute then "." else core
    let core := if core != "" && trailingSep then core ++ "/" else core
    if isAbsolute then "/" ++ core else core

/-- Posix `join` of the Deno std path library on two arguments: empty parts
are skipped, the remaining parts are concatenated with `/` and the result is
normalised (`.` when both parts are empty). -/
def posixJoin (a b : String) : String :=
  if a == "" then (if b == "" then "." else normalize b)
  else if b == "" then normalize a
  else normalize (a ++ "/" ++ b)

/-- `entry.name.split('.')` from `useStatic`. -/
def splitFileName (filename : String) : List String := splitStr '.' filename

/-- The `extension` variable of `useStatic`: the last piece of the filename
split on dots (`splitFileName[splitFileName.length - 1]`). -/
def extensionOf (filename : String) : String := (splitFileName filename).getLastD ""

/-- The `name` variable of `useStatic`: the filename split on dots with the
last piece popped, re-joined with dots. -/
def nameOf (filename : String) : String :=
  joinWith "." (splitFileName filename).dropLast

/-- The route path `useStatic` registers for a file named `filename` found
under route directory `staticRoute`: the posix join of the two, except that
a file whose `name` part is `index` and extension is `html` is bound to the
parent (`join(pathnameRoute, '..')`); backslashes are then replaced by
forward slashes. -/
def staticRouteFor (staticRoute filename : String) : String :=
  replaceBackslashes
    (if nameOf filename == "index" && extensionOf filename == "html" then
      posixJoin (posixJoin staticRoute filename) ".."
    else posixJoin staticRoute filename)

/-- The payload the `useStatic` handler always resolves with: the captured
file contents, content type `MIMEFromExt(extension)`, status `200`. -/
def staticPayload (contents extension : String) : ResponseConstructor :=
  { body := some contents
  , init := some { headers := [("Content-Type", MIMEFromExt extension)], status := 200 } }

/-- A filesystem tree as `useStatic` observes it through `Deno.readDirSync`:
each directory's list is in enumeration order, each file carries its decoded
contents. -/
inductive FsEntry where
  | file (name contents : String) : FsEntry
  | dir (name : String) (entries : List FsEntry) : FsEntry

mutual

/-- Processing of one directory entry by `useStatic`: a subdirectory is
recursed into with both paths extended; a file is read (recorded as a read
event on the joined filesystem path) and registered through
`ServerShell.get` with a handler that always resolves to the captured
payload. -/
def bindEntry (s : ServerShell) (staticDirectory staticRoute : String) :
    FsEntry → Option RouteAlreadyBoundError × ServerShell × List String
  | .dir name entries =>
      bindEntries s (posixJoin staticDirectory name) (posixJoin staticRoute name) entries
  | .file name contents =>
      let pathnameDir := posixJoin staticDirectory name
      let extension := extensionOf name
      let reg := ServerShell.get s (staticRouteFor staticRoute name)
        (fun _ => staticPayload contents extension)
      (reg.1, reg.2, [pathnameDir])

/-- The `for (const entry of Deno.readDirSync(...))` loop of `useStatic`: the
entries are processed in order; a thrown `RouteAlreadyBoundError` aborts the
loop, leaving the registrations and reads made so far in place. -/
def bindEntries (s : ServerShell) (staticDirectory staticRoute : String) :
    List FsEntry → Option RouteAlreadyBoundError × ServerShell × List String
  | [] => (none, s, [])
  | e :: rest =>
    match bindEntry s staticDirectory staticRoute e with
    | (some err, s1, reads) => (some err, s1, reads)
    | (none, s1, reads) =>
      match bindEntries s1 staticDirectory staticRoute rest with
      | (err, s2, reads2) => (err, s2, reads ++ reads2)

end

/-- `ServerShell.useStatic` on a shell, given the enumeration of the root
static directory. -/
def ServerShell.useStatic (s : ServerShell) (staticDirectory staticRoute : String)
    (listing : List FsEntry) : Option RouteAlreadyBoundError × ServerShell × List String :=
  bindEntries s staticDirectory staticRoute listing

mutual

/-- Specification-side enumeration of the filesystem paths of the regular
files in a tree, one entry per file, in walk order. -/
def fileReadsOfEntry (staticDirectory : String) : FsEntry → List String
  | .file name _ => [posixJoin staticDirectory name]
  | .dir name entries => fileReadsOf (posixJoin staticDirectory name) entries

/-- Specification-side enumeration of the filesystem paths of the regular
files under a directory listing, one entry per file, in walk order. -/
def fileReadsOf (staticDirectory : String) : List FsEntry → List String
  | [] => []
  | e :: rest => fileReadsOfEntry staticDirectory e ++ fileReadsOf staticDirectory rest

end

mutual

/-- Specification-side enumeration of the `(routePath, contents, extension)`
triples of the regular files in a tree, in walk order. -/
def staticFilesOfEntry (staticRoute : String) : FsEntry → List (String × String × String)
  | .file name contents => [(staticRouteFor staticRoute name, contents, extensionOf name)]
  | .dir name entries => staticFilesOf (posixJoin staticRoute name) entries

/-- Specification-side enumeration of the `(routePath, contents, extension)`
triples of the regular files under a directory listing, in walk order. -/
def staticFilesOf (staticRoute : String) : List FsEntry → List (String × String × String)
  | [] => []
  | e :: rest => staticFilesOfEntry staticRoute e ++ staticFilesOf staticRoute rest

end

/-- Whether a route matches a request pathname and (uppercased) method: the
disjunction of the two branches of the dispatch loop — exact path equality
together with exact method equality or method `ANY`. -/
def matchesReq (route : Route) (pathname method : String) : Bool :=
  route.path == pathname && (route.method == method || route.method == "ANY")

/-- Specification-side `resolve`, following the spec's words: the first
binding in insertion order whose path exactly equals the request path and
whose method equals the request method or is `ANY`. -/
def resolveSpec (routes : List Route) (pathname method : String) : Option Route :=
  routes.find? (fun route => matchesReq route pathname method)

/-- The specification-side conflict predicate, following the spec's words: an
existing binding conflicts with a new `(path, method)` registration when the
paths coincide and the methods are equal, or the existing method is `ANY`,
or the new method is `ANY`. -/
def conflictsWith (existing : Route) (path method : String) : Bool :=
  existing.path == path &&
    (existing.method == method || existing.method == "ANY" || method == "ANY")

/-- One registration call on the setup surface: which method-specific
binder is invoked, with its path and listener. -/
inductive RegCall where
  | get (path : String) (listener : Handler) : RegCall
  | post (path : String) (listener : Handler) : RegCall
  | options (path : String) (listener : Handler) : RegCall
  | put (path : String) (listener : Handler) : RegCall
  | delete (path : String) (listener : Handler) : RegCall
  | any (path : String) (listener : Handler) : RegCall

/-- The path argument of a registration call. -/
def RegCall.rpath : RegCall → String
  | .get p _ => p | .post p _ => p | .options p _ => p
  | .put p _ => p | .delete p _ => p | .any p _ => p

/-- The method string of the route a registration call would create. -/
def RegCall.rmethod : RegCall → String
  | .get _ _ => "GET" | .post _ _ => "POST" | .options _ _ => "OPTIONS"
  | .put _ _ => "PUT" | .delete _ _ => "DELETE" | .any _ _ => "ANY"

/-- The listener argument of a registration call. -/
def RegCall.rlistener : RegCall → Handler
  | .get _ l => l | .post _ l => l | .options _ l => l
  | .put _ l => l | .delete _ l => l | .any _ l => l

/-- Dispatches a registration call to the corresponding `ServerShell`
method. -/
def applyReg (s : ServerShell) : RegCall → Option RouteAlreadyBoundError × ServerShell
  | .get p l => s.get p l
  | .post p l => s.post p l
  | .options p l => s.options p l
  | .put p l => s.put p l
  | .delete p l => s.delete p l
  | .any p l => s.any p l

/-- The pairwise form of the route-table uniqueness invariant: two distinct
bindings sharing a path have distinct methods, neither of them `ANY`. -/
def pairwiseOK (r1 r2 : Route) : Prop :=
  r1.path = r2.path → r1.method ≠ r2.method ∧ r1.method ≠ "ANY" ∧ r2.method ≠ "ANY"

/-- A route table is consistent when its bindings are pairwise compatible. -/
def routesConsistent (routes : List Route) : Prop := routes.Pairwise pairwiseOK

/-- The number of bindings in a table with a given path and method. -/
def methodCount (routes : List Route) (p m : String) : Nat :=
  (routes.filter (fun r => r.path == p && r.method == m)).length

/-- The number of bindings in a table with a given path and a concrete
(non-`ANY`) method. -/
def concreteCount (routes : List Route) (p : String) : Nat :=
  (routes.filter (fun r => r.path == p && r.method != "ANY")).length

/-- The route-table uniqueness invariant as the spec states it: for each
path, either there is no `ANY` binding and at most one binding per concrete
method, or exactly one `ANY` binding and no concrete-method bindings. -/
def tableInvariant (routes : List Route) : Prop :=
  ∀ p : String,
    (methodCount routes p "ANY" = 0 ∧
      ∀ m : String, m ≠ "ANY" → methodCount routes p m ≤ 1) ∨
    (methodCount routes p "ANY" = 1 ∧ concreteCount routes p = 0)

/-- Route tables reachable from a fresh shell through the setup surface:
registration calls (successful or rejected) and static binding. -/
inductive Reachable : ServerShell → Prop where
  | init : Reachable ServerShell.new
  | reg (s : ServerShell) (c : RegCall) : Reachable s → Reachable (applyReg s c).2
  | middleware (s : ServerShell) (m : Request → Unit) : Reachable s → Reachable (s.use m)
  | bindStatic (s : ServerShell) (d r : String) (listing : List FsEntry) :
      Reachable s → Reachable (s.useStatic d r listing).2.1

/-- A well-formed path segment or file name: non-empty, free of path
separators (either kind), and not one of the special names `.` and `..`. -/
def cleanSeg (x : String) : Prop :=
  x ≠ "" ∧ '/' ∉ x.data ∧ '\\' ∉ x.data ∧ x ≠ "." ∧ x ≠ ".."

/-- The absolute path with the given segments, in canonical form. -/
def mkAbs (segs : List String) : String := "/" ++ joinWith "/" segs

/-- Wraps an entry in a chain of single-child directories, innermost last:
the entry sits at relative directory path `dirs` in the resulting tree. -/
def nestDirs (dirs : List String) (e : FsEntry) : FsEntry :=
  dirs.foldr (fun n acc => FsEntry.dir n [acc]) e

/-- The observable view of a route under a fixed request: its path, its
method, and the payload its callback produces for that request. -/
def routeView (req : Request) (rt : Route) : String × String × ResponseConstructor :=
  (rt.path, rt.method, rt.callback req)

/-- Joins a list of character lists with a separator character; the
character-level counterpart of `joinWith` with a one-character separator. -/
def joinChar (c : Char) : List (List Char) → List Char
  | [] => []
  | [l] => l
  | l :: ls => l ++ c :: joinChar c ls

/-- The extensions named in the `MIMEFromExt` switch; every extension
outside this list falls through to the `text/plain` default. -/
def knownExtensions : List String :=
  ["html", "htm", "css", "js", "mjs", "txt", "svg", "apng", "png", "gif",
   "jpg", "jpeg", "ico", "mp4", "mpeg", "ogv", "mp3", "oga", "json", "xml",
   "zip", "7z", "rar", "tar", "gz", "php", "pdf", "sh", "otf", "ttf"]

/-! ## Case-folding lemmas -/

theorem charToLower_toUpper (c : Char) : c.toUpper.toLower = c.toLower := by
  by_cases h : 97 ≤ c.toNat ∧ c.toNat ≤ 122
  · obtain ⟨n, h1, h2, rfl⟩ : ∃ n, 97 ≤ n ∧ n ≤ 122 ∧ c = Char.ofNat n :=
      ⟨c.toNat, h.1, h.2, (Char.ofNat_toNat c).symm⟩
    interval_cases n <;> decide
  · have hu : c.toUpper = c := by
      unfold Char.toUpper
      exact if_neg h
    rw [hu]

theorem toLowerCase_toUpperCase (s : String) :
    toLowerCase (toUpperCase s) = toLowerCase s := by
  have key : ∀ l : List Char, (l.map Char.toUpper).map Char.toLower = l.map Char.toLower := by
    intro l
    induction l with
    | nil => rfl
    | cons a l ih => simp only [List.map_cons, ih, charToLower_toUpper]
  unfold toLowerCase toUpperCase
  exact congrArg String.mk (key s.data)

/-! ## Dispatch-loop lemmas -/

theorem matchesReq_iff (r : Route) (pn m : String) :
    matchesReq r pn m = true ↔ r.path = pn ∧ (r.method = m ∨ r.method = "ANY") := by
  simp [matchesReq]

theorem dispatchStep_eq (req : Request) (pn m : String)
    (acc : ResponseConstructor × List Event) (route : Route) :
    dispatchStep req pn m acc route =
      if matchesReq route pn m then
        (route.callback req, acc.2 ++ [Event.callbackCall route.path route.method])
      else acc := by
  cases hp : route.path == pn <;> cases hm : route.method == m <;>
    cases ha : route.method == "ANY" <;>
    simp [dispatchStep, Route.equals, matchesReq, hp, hm, ha]

theorem foldl_dispatchStep_no_match (req : Request) (pn m : String)
    (l : List Route) (acc : ResponseConstructor × List Event)
    (h : ∀ r ∈ l, matchesReq r pn m = false) :
    l.foldl (dispatchStep req pn m) acc = acc := by
  induction l generalizing acc with
  | nil => rfl
  | cons r rest ih =>
    rw [List.foldl_cons, dispatchStep_eq]
    rw [if_neg (by simp [h r (List.mem_cons_self r rest)])]
    exact ih acc (fun x hx => h x (List.mem_cons_of_mem r hx))

theorem foldl_dispatchStep_consistent (req : Request) (pn m : String)
    (l : List Route) (acc : ResponseConstructor × List Event)
    (hc : routesConsistent l) :
    l.foldl (dispatchStep req pn m) acc =
      match resolveSpec l pn m with
      | none => acc
      | some r => (r.callback req, acc.2 ++ [Event.callbackCall r.path r.method]) := by
  induction l generalizing acc with
  | nil => rfl
  | cons r rest ih =>
    have hpair := List.pairwise_cons.mp hc
    cases hmr : matchesReq r pn m with
    | true =>
      have hfind : resolveSpec (r :: rest) pn m = some r := by
        simp [resolveSpec, List.find?_cons_of_pos, hmr]
      rw [hfind, List.foldl_cons, dispatchStep_eq, if_pos hmr]
      have hnone : ∀ x ∈ rest, matchesReq x pn m = false := by
        intro x hx
        cases hmx : matchesReq x pn m with
        | false => rfl
        | true =>
          obtain ⟨hp1, hm1⟩ := (matchesReq_iff r pn m).mp hmr
          obtain ⟨hp2, hm2⟩ := (matchesReq_iff x pn m).mp hmx
          obtain ⟨hne, hA1, hA2⟩ := hpair.1 x hx (hp1.trans hp2.symm)
          cases hm1 with
          | inl h1 =>
            cases hm2 with
            | inl h2 => exact absurd (h1.trans h2.symm) hne
            | inr h2 => exact absurd h2 hA2
          | inr h1 => exact absurd h1 hA1
      exact foldl_dispatchStep_no_match req pn m rest _ hnone
    | false =>
      have hfind : resolveSpec (r :: rest) pn m = resolveSpec rest pn m := by
        simp [resolveSpec, List.find?_cons_of_neg, hmr]
      rw [hfind, List.foldl_cons, dispatchStep_eq, if_neg (by simp [hmr])]
      exact ih acc hpair.2

theorem foldl_dispatchStep_events (req : Request) (pn m : String)
    (l : List Route) (acc : ResponseConstructor × List Event)
    (h : ∀ e ∈ acc.2, ∃ p mm, e = Event.callbackCall p mm) :
    ∀ e ∈ (l.foldl (dispatchStep req pn m) acc).2, ∃ p mm, e = Event.callbackCall p mm := by
  induction l generalizing acc with
  | nil => exact h
  | cons r rest ih =>
    rw [List.foldl_cons, dispatchStep_eq]
    by_cases hmr : matchesReq r pn m = true
    · rw [if_pos hmr]
      refine ih _ (fun e he => ?_)
      rcases List.mem_append.mp he with h1 | h2
      · exact h e h1
      · exact ⟨r.path, r.method, by simpa using h2⟩
    · rw [if_neg hmr]
      exact ih acc h

theorem dispatch_eq (s : ServerShell) (req : Request) :
    dispatch s req =
      ((s.routes.foldl (dispatchStep req req.path (toUpperCase req.method))
          (defaultPayload (toUpperCase req.method) req.path, [])).1,
       Event.middlewareCall ::
        (s.routes.foldl (dispatchStep req req.path (toUpperCase req.method))
          (defaultPayload (toUpperCase req.method) req.path, [])).2) := rfl

/-- Claim C1: on any route table satisfying the data model's uniqueness
invariant, the dispatcher's payload comes from the first (and only) binding
whose path exactly equals the request pathname and whose method equals the
uppercased request method or is `ANY`; the trace shows that no other
callback is invoked.  Matching is exact string equality on both components
(no trailing-slash normalisation, no case folding). -/
theorem dispatch_first_match (s : ServerShell) (req : Request)
    (hc : routesConsistent s.routes) :
    dispatch s req =
      match resolveSpec s.routes req.path (toUpperCase req.method) with
      | some r => (r.callback req, [Event.middlewareCall, Event.callbackCall r.path r.method])
      | none => (defaultPayload (toUpperCase req.method) req.path, [Event.middlewareCall]) := by
  rw [dispatch_eq,
    foldl_dispatchStep_consistent req req.path (toUpperCase req.method) s.routes _ hc]
  cases resolveSpec s.routes req.path (toUpperCase req.method) <;> rfl

theorem dispatch_first_match_witness :
    dispatch
      { routes := [{ path := "/a", method := "GET", callback := fun _ => { body := some "A", init := none } }]
      , middleware := fun _ => () }
      { method := "get", path := "/a" } =
    ({ body := some "A", init := none },
      [Event.middlewareCall, Event.callbackCall "/a" "GET"]) := by
  rw [dispatch_first_match _ _ (by simp [routesConsistent])]
  rfl

/-- Claim C3: a request matching no binding gets the default payload: status
404, content type `text/html`, body `Cannot <lowercased method> <pathname>`. -/
theorem unmatched_request_404 (s : ServerShell) (req : Request)
    (h : ∀ r ∈ s.routes, matchesReq r req.path (toUpperCase req.method) = false) :
    dispatch s req =
      ({ body := some ("Cannot " ++ toLowerCase req.method ++ " " ++ req.path)
       , init := some { headers := [("Content-Type", "text/html")], status := 404 } },
       [Event.middlewareCall]) := by
  rw [dispatch_eq,
    foldl_dispatchStep_no_match req req.path (toUpperCase req.method) s.routes _ h]
  unfold defaultPayload
  rw [toLowerCase_toUpperCase]

theorem unmatched_request_404_witness :
    dispatch
      { routes := [{ path := "/x", method := "GET", callback := fun _ => { body := none, init := none } }]
      , middleware := fun _ => () }
      { method := "PATCH", path := "/nope" } =
    ({ body := some "Cannot patch /nope"
     , init := some { headers := [("Content-Type", "text/html")], status := 404 } },
     [Event.middlewareCall]) := by
  rw [unmatched_request_404 _ _ (by decide)]
  rfl

/-- Claim C5: the middleware hook is invoked exactly once per dispatched
request, first in the effect trace (before any callback), its result does
not influence the outcome, and a later `use` call replaces the previous
hook wholesale. -/
theorem middleware_hook_semantics (s : ServerShell) (req : Request)
    (m1 m2 : Request → Unit) :
    (dispatch s req).2.head? = some Event.middlewareCall
  ∧ (dispatch s req).2.count Event.middlewareCall = 1
  ∧ dispatch (s.use m1) req = dispatch s req
  ∧ (s.use m1).use m2 = s.use m2 := by
  refine ⟨rfl, ?_, rfl, rfl⟩
  have hsh : ∀ e ∈ (dispatch s req).2.tail, ∃ p mm, e = Event.callbackCall p mm := by
    intro e he
    exact foldl_dispatchStep_events req req.path (toUpperCase req.method) s.routes _
      (by intro e he; simp at he) e he
  have hzero : (dispatch s req).2.tail.count Event.middlewareCall = 0 := by
    refine List.count_eq_zero.mpr (fun hmem => ?_)
    obtain ⟨p, mm, habs⟩ := hsh Event.middlewareCall hmem
    exact Event.noConfusion habs
  have hshape : (dispatch s req).2 = Event.middlewareCall :: (dispatch s req).2.tail := rfl
  rw [hshape, List.count_cons_self, hzero]

/-- Claim C10: a fresh shell's middleware is the no-op `() => {}`, and the
dispatch outcome is a function of the route table and the request alone —
replacing the middleware never changes it. -/
theorem default_shell_hook_noop :
    ServerShell.new.middleware = (fun _ => ())
  ∧ ∀ (routes : List Route) (m1 m2 : Request → Unit) (req : Request),
      dispatch { routes := routes, middleware := m1 } req =
      dispatch { routes := routes, middleware := m2 } req :=
  ⟨rfl, fun _ _ _ _ => rfl⟩

/-! ## Registration lemmas -/

theorem conflictsWith_concrete (r : Route) (p m : String) (hm : m ≠ "ANY") :
    conflictsWith r p m = (r.path == p && (r.method == m || r.method == "ANY")) := by
  have : (m == "ANY") = false := beq_eq_false_iff_ne.mpr hm
  simp [conflictsWith, this]

theorem applyReg_spec (s : ServerShell) (c : RegCall) :
    applyReg s c =
      if s.routes.any (fun r => conflictsWith r c.rpath c.rmethod) then
        (some { route := c.rpath }, s)
      else
        (none, { s with routes := s.routes ++
          [{ path := c.rpath, method := c.rmethod, callback := c.rlistener }] }) := by
  cases c with
  | get p l =>
    show s.get p l = _
    unfold ServerShell.get
    rw [show (fun r => conflictsWith r (RegCall.get p l).rpath (RegCall.get p l).rmethod) =
      (fun r : Route => r.path == p && (r.method == "GET" || r.method == "ANY")) from
      funext (fun r => conflictsWith_concrete r p "GET" (by decide))]
    rfl
  | post p l =>
    show s.post p l = _
    unfold ServerShell.post
    rw [show (fun r => conflictsWith r (RegCall.post p l).rpath (RegCall.post p l).rmethod) =
      (fun r : Route => r.path == p && (r.method == "POST" || r.method == "ANY")) from
      funext (fun r => conflictsWith_concrete r p "POST" (by decide))]
    rfl
  | options p l =>
    show s.options p l = _
    unfold ServerShell.options
    rw [show (fun r => conflictsWith r (RegCall.options p l).rpath (RegCall.options p l).rmethod) =
      (fun r : Route => r.path == p && (r.method == "OPTIONS" || r.method == "ANY")) from
      funext (fun r => conflictsWith_concrete r p "OPTIONS" (by decide))]
    rfl
  | put p l =>
    show s.put p l = _
    unfold ServerShell.put
    rw [show (fun r => conflictsWith r (RegCall.put p l).rpath (RegCall.put p l).rmethod) =
      (fun r : Route => r.path == p && (r.method == "PUT" || r.method == "ANY")) from
      funext (fun r => conflictsWith_concrete r p "PUT" (by decide))]
    rfl
  | delete p l =>
    show s.delete p l = _
    unfold ServerShell.delete
    rw [show (fun r => conflictsWith r (RegCall.delete p l).rpath (RegCall.delete p l).rmethod) =
      (fun r : Route => r.path == p && (r.method == "DELETE" || r.method == "ANY")) from
      funext (fun r => conflictsWith_concrete r p "DELETE" (by decide))]
    rfl
  | any p l =>
    show s.any p l = _
    unfold ServerShell.any
    rw [show (fun r => conflictsWith r (RegCall.any p l).rpath (RegCall.any p l).rmethod) =
      (fun r : Route => r.path == p) from
      funext (fun r => by simp [conflictsWith, RegCall.rpath, RegCall.rmethod])]
    rfl

/-- Claim C2: a registration call conflicting with an existing binding for
the same path (same concrete method, or either side `ANY`) yields the
duplicate-binding error and returns the table completely unchanged, so its
resolvable set is untouched; a non-conflicting call appends exactly the new
binding at the end. -/
theorem register_duplicate_policy (s : ServerShell) (c : RegCall) :
    applyReg s c =
      if s.routes.any (fun r => conflictsWith r c.rpath c.rmethod) then
        (some { route := c.rpath }, s)
      else
        (none, { s with routes := s.routes ++
          [{ path := c.rpath, method := c.rmethod, callback := c.rlistener }] }) :=
  applyReg_spec s c

/-! ## The extension-to-content-type resolver -/

theorem MIMEFromExt_default (e : String) (he : e ∉ knownExtensions) :
    MIMEFromExt e = "text/plain" := by
  simp only [knownExtensions, List.mem_cons, List.not_mem_nil, or_false, not_or] at he
  obtain ⟨h1, h2, h3, h4, h5, h6, h7, h8, h9, h10, h11, h12, h13, h14, h15,
    h16, h17, h18, h19, h20, h21, h22, h23, h24, h25, h26, h27, h28, h29, h30⟩ := he
  simp [MIMEFromExt, h1, h2, h3, h4, h5, h6, h7, h8, h9, h10, h11, h12, h13,
    h14, h15, h16, h17, h18, h19, h20, h21, h22, h23, h24, h25, h26, h27, h28, h29, h30]

/-- Claim C8: `MIMEFromExt` is a total, case-sensitive pure function: each
extension of the enumeration maps to its stated content type, and every
extension outside the enumeration falls through to `text/plain` (no error
path exists). -/
theorem MIMEFromExt_enumeration :
    (MIMEFromExt "html" = "text/html" ∧ MIMEFromExt "htm" = "text/html"
  ∧ MIMEFromExt "css" = "text/css"
  ∧ MIMEFromExt "js" = "text/javascript" ∧ MIMEFromExt "mjs" = "text/javascript"
  ∧ MIMEFromExt "json" = "application/json"
  ∧ MIMEFromExt "png" = "image/png"
  ∧ MIMEFromExt "jpg" = "image/jpeg" ∧ MIMEFromExt "jpeg" = "image/jpeg"
  ∧ MIMEFromExt "gif" = "image/gif" ∧ MIMEFromExt "svg" = "image/svg+xml"
  ∧ MIMEFromExt "ico" = "image/vnd.microsoft.icon"
  ∧ MIMEFromExt "mp3" = "audio/mpeg" ∧ MIMEFromExt "oga" = "audio/ogg"
  ∧ MIMEFromExt "mp4" = "video/mp4" ∧ MIMEFromExt "mpeg" = "video/mpeg"
  ∧ MIMEFromExt "ogv" = "video/ogg"
  ∧ MIMEFromExt "zip" = "application/zip"
  ∧ MIMEFromExt "7z" = "application/x-7z-compressed"
  ∧ MIMEFromExt "rar" = "application/vnd.rar"
  ∧ MIMEFromExt "tar" = "application/x-tar"
  ∧ MIMEFromExt "gz" = "application/gzip"
  ∧ MIMEFromExt "otf" = "font/otf" ∧ MIMEFromExt "ttf" = "font/ttf"
  ∧ MIMEFromExt "pdf" = "application/pdf"
  ∧ MIMEFromExt "sh" = "application/x-sh"
  ∧ MIMEFromExt "php" = "application/x-httpd-php")
  ∧ ∀ e : String, e ∉ knownExtensions → MIMEFromExt e = "text/plain" := by
  exact ⟨by decide, MIMEFromExt_default⟩

theorem MIMEFromExt_enumeration_witness : MIMEFromExt "xyz" = "text/plain" :=
  MIMEFromExt_enumeration.2 "xyz" (by decide)

/-! ## The route-table uniqueness invariant -/

theorem consistent_filter_le_one (l : List Route) (q : Route → Bool)
    (hc : routesConsistent l)
    (hq : ∀ a b : Route, q a = true → q b = true → pairwiseOK a b → False) :
    (l.filter q).length ≤ 1 := by
  cases hf : l.filter q with
  | nil => simp
  | cons a t =>
    cases t with
    | nil => simp
    | cons b t2 =>
      exfalso
      have hsub : List.Sublist (a :: b :: t2) l := by
        rw [← hf]
        exact List.filter_sublist l
      have hp : List.Pairwise pairwiseOK (a :: b :: t2) :=
        List.Pairwise.sublist hsub hc
      have hab : pairwiseOK a b := (List.pairwise_cons.mp hp).1 b (List.mem_cons_self b t2)
      have hqa : q a = true := List.of_mem_filter (p := q) (l := l)
        (by rw [hf]; exact List.mem_cons_self a (b :: t2))
      have hqb : q b = true := List.of_mem_filter (p := q) (l := l)
        (by rw [hf]; exact List.mem_cons_of_mem a (List.mem_cons_self b t2))
      exact hq a b hqa hqb hab

theorem consistent_methodCount_le_one (l : List Route) (hc : routesConsistent l)
    (p m : String) : methodCount l p m ≤ 1 := by
  refine consistent_filter_le_one l _ hc (fun a b hqa hqb hab => ?_)
  simp only [Bool.and_eq_true, beq_iff_eq] at hqa hqb
  exact (hab (hqa.1.trans hqb.1.symm)).1 (hqa.2.trans hqb.2.symm)

theorem pairwiseOK_symmetric : Symmetric pairwiseOK := by
  intro a b h hp
  obtain ⟨h1, h2, h3⟩ := h hp.symm
  exact ⟨Ne.symm h1, h3, h2⟩

theorem consistent_tableInvariant (l : List Route) (hc : routesConsistent l) :
    tableInvariant l := by
  intro p
  by_cases hA : methodCount l p "ANY" = 0
  · exact Or.inl ⟨hA, fun m _ => consistent_methodCount_le_one l hc p m⟩
  · refine Or.inr ⟨?_, ?_⟩
    · have := consistent_methodCount_le_one l hc p "ANY"
      omega
    · have hne : l.filter (fun r => r.path == p && r.method == "ANY") ≠ [] := by
        intro hnil
        exact hA (by simp [methodCount, hnil])
      obtain ⟨rA, hrA⟩ := List.exists_mem_of_ne_nil _ hne
      have hrAl : rA ∈ l := List.mem_of_mem_filter hrA
      have hrAq := List.of_mem_filter hrA
      simp only [Bool.and_eq_true, beq_iff_eq] at hrAq
      refine List.length_eq_zero.mpr (List.eq_nil_iff_forall_not_mem.mpr ?_)
      intro r hr
      rw [List.mem_filter] at hr
      obtain ⟨hrl, hrq⟩ := hr
      simp only [Bool.and_eq_true, beq_iff_eq, bne_iff_ne, ne_eq] at hrq
      have hdiff : rA ≠ r := by
        intro hEq
        rw [hEq] at hrAq
        exact hrq.2 hrAq.2
      have hOK : pairwiseOK rA r :=
        List.Pairwise.forall pairwiseOK_symmetric hc hrAl hrl hdiff
      exact (hOK (hrAq.1.trans hrq.1.symm)).2.1 hrAq.2

theorem consistent_applyReg (s : ServerShell) (c : RegCall)
    (hc : routesConsistent s.routes) :
    routesConsistent ((applyReg s c).2).routes := by
  rw [applyReg_spec]
  by_cases h : (s.routes.any fun r => conflictsWith r c.rpath c.rmethod) = true
  · rw [if_pos h]
    exact hc
  · rw [if_neg h]
    have hall : ∀ r ∈ s.routes, ¬(conflictsWith r c.rpath c.rmethod = true) := by
      intro r hr hcf
      exact h (List.any_eq_true.mpr ⟨r, hr, hcf⟩)
    refine List.pairwise_append.mpr ⟨hc, List.pairwise_singleton _ _, ?_⟩
    intro r hr r2 hr2
    have hr2e : r2 = { path := c.rpath, method := c.rmethod, callback := c.rlistener } := by
      simpa using hr2
    subst hr2e
    intro hpath
    have hnc := hall r hr
    simp only [conflictsWith, hpath, beq_self_eq_true, Bool.true_and,
      Bool.or_eq_true, beq_iff_eq, not_or] at hnc
    exact ⟨hnc.1.1, hnc.1.2, hnc.2⟩

mutual

theorem consistent_bindEntry (s : ServerShell) (d r : String) (e : FsEntry)
    (hc : routesConsistent s.routes) :
    routesConsistent ((bindEntry s d r e).2.1).routes := by
  cases e with
  | dir name entries =>
    exact consistent_bindEntries s (posixJoin d name) (posixJoin r name) entries hc
  | file name contents =>
    exact consistent_applyReg s
      (RegCall.get (staticRouteFor r name)
        (fun _ => staticPayload contents (extensionOf name))) hc

theorem consistent_bindEntries (s : ServerShell) (d r : String) (es : List FsEntry)
    (hc : routesConsistent s.routes) :
    routesConsistent ((bindEntries s d r es).2.1).routes := by
  cases es with
  | nil => exact hc
  | cons e rest =>
    simp only [bindEntries]
    rcases hbe : bindEntry s d r e with ⟨err, s1, reads⟩
    have h1 : routesConsistent s1.routes := by
      have := consistent_bindEntry s d r e hc
      rw [hbe] at this
      exact this
    cases err with
    | some msg => exact h1
    | none => exact consistent_bindEntries s1 d r rest h1

end

theorem consistent_reachable (s : ServerShell) (h : Reachable s) :
    routesConsistent s.routes := by
  induction h with
  | init => exact List.Pairwise.nil
  | reg s c _ ih => exact consistent_applyReg s c ih
  | middleware s m _ ih => exact ih
  | bindStatic s d r listing _ ih => exact consistent_bindEntries s d r listing ih

/-- Claim C4: every route table reachable from a fresh shell through any
sequence of registration calls and static binding satisfies the uniqueness
invariant: per path, either at most one binding per concrete method and no
`ANY` binding, or exactly one `ANY` binding and no concrete-method
bindings. -/
theorem reachable_table_invariant (s : ServerShell) (h : Reachable s) :
    tableInvariant s.routes :=
  consistent_tableInvariant s.routes (consistent_reachable s h)

theorem reachable_table_invariant_witness :
    tableInvariant ((applyReg ServerShell.new
      (RegCall.get "/a" (fun _ => { body := none, init := none }))).2.routes) :=
  reachable_table_invariant _ (Reachable.reg ServerShell.new _ Reachable.init)

/-! ## Character-level string lemmas -/

theorem stringMk_data (s : String) : String.mk s.data = s := by
  cases s
  rfl

theorem stringExt {a b : String} (h : a.data = b.data) : a = b := by
  cases a
  cases b
  exact congrArg String.mk h

theorem data_ne_nil {s : String} (h : s ≠ "") : s.data ≠ [] := by
  intro hd
  exact h (stringExt (show s.data = "".data from hd))

theorem splitOnChar_cons (c x : Char) (xs : List Char) :
    splitOnChar c (x :: xs) =
      match splitOnChar c xs with
      | [] => [[]]
      | s :: ss => if x = c then [] :: s :: ss else (x :: s) :: ss := rfl

theorem splitOnChar_ne_nil (c : Char) (l : List Char) : splitOnChar c l ≠ [] := by
  induction l with
  | nil => simp [splitOnChar]
  | cons x xs ih =>
    rw [splitOnChar_cons]
    cases h : splitOnChar c xs with
    | nil => exact absurd h ih
    | cons s ss => by_cases hx : x = c <;> simp [hx]

theorem splitOnChar_sep_cons (c : Char) (l : List Char) :
    splitOnChar c (c :: l) = [] :: splitOnChar c l := by
  rw [splitOnChar_cons]
  cases h : splitOnChar c l with
  | nil => exact absurd h (splitOnChar_ne_nil c l)
  | cons s ss => simp

theorem splitOnChar_not_mem (c : Char) (l : List Char) (h : c ∉ l) :
    splitOnChar c l = [l] := by
  induction l with
  | nil => rfl
  | cons x xs ih =>
    have hx : x ≠ c := fun he => h (he ▸ List.mem_cons_self x xs)
    have hxs : c ∉ xs := fun hm => h (List.mem_cons_of_mem x hm)
    rw [splitOnChar_cons, ih hxs]
    simp [hx]

theorem splitOnChar_append_sep (c : Char) (l1 l2 : List Char) (h : c ∉ l1) :
    splitOnChar c (l1 ++ c :: l2) = l1 :: splitOnChar c l2 := by
  induction l1 with
  | nil => simpa using splitOnChar_sep_cons c l2
  | cons x xs ih =>
    have hx : x ≠ c := fun he => h (he ▸ List.mem_cons_self x xs)
    have hxs : c ∉ xs := fun hm => h (List.mem_cons_of_mem x hm)
    rw [List.cons_append, splitOnChar_cons, ih hxs]
    simp [hx]

theorem joinChar_cons_cons (c : Char) (l s : List Char) (ss : List (List Char)) :
    joinChar c (l :: s :: ss) = l ++ c :: joinChar c (s :: ss) := rfl

theorem splitOnChar_cons_ne (c x : Char) (xs : List Char) (hx : x ≠ c)
    (s : List Char) (ss : List (List Char)) (h : splitOnChar c xs = s :: ss) :
    splitOnChar c (x :: xs) = (x :: s) :: ss := by
  rw [splitOnChar_cons, h]
  simp [hx]

theorem splitOnChar_joinChar (c : Char) (ls : List (List Char))
    (hne : ls ≠ []) (h : ∀ x ∈ ls, c ∉ x) :
    splitOnChar c (joinChar c ls) = ls := by
  induction ls with
  | nil => exact absurd rfl hne
  | cons x xs ih =>
    cases xs with
    | nil =>
      simpa [joinChar] using splitOnChar_not_mem c x (h x (List.mem_cons_self x []))
    | cons y ys =>
      rw [joinChar_cons_cons,
        splitOnChar_append_sep c x _ (h x (List.mem_cons_self x (y :: ys))),
        ih (by simp) (fun z hz => h z (List.mem_cons_of_mem x hz))]

theorem joinChar_splitOnChar (c : Char) (l : List Char) :
    joinChar c (splitOnChar c l) = l := by
  induction l with
  | nil => rfl
  | cons x xs ih =>
    cases h : splitOnChar c xs with
    | nil => exact absurd h (splitOnChar_ne_nil c xs)
    | cons s ss =>
      rw [h] at ih
      by_cases hx : x = c
      · subst hx
        rw [splitOnChar_sep_cons, h, joinChar_cons_cons]
        simpa using ih
      · rw [splitOnChar_cons_ne c x xs hx s ss h]
        cases ss with
        | nil =>
          simp only [joinChar] at ih ⊢
          rw [ih]
        | cons t ts =>
          rw [joinChar_cons_cons]
          rw [joinChar_cons_cons] at ih
          simpa using ih

theorem splitOnChar_getLastD (c : Char) (l : List Char) :
    c ∉ (splitOnChar c l).getLastD [] := by
  induction l with
  | nil => simp [splitOnChar]
  | cons x xs ih =>
    cases h : splitOnChar c xs with
    | nil => exact absurd h (splitOnChar_ne_nil c xs)
    | cons s ss =>
      rw [h] at ih
      by_cases hx : x = c
      · subst hx
        rw [splitOnChar_sep_cons, h]
        simpa [List.getLastD_cons] using ih
      · rw [splitOnChar_cons_ne c x xs hx s ss h]
        cases ss with
        | nil =>
          simp only [List.getLastD] at ih ⊢
          intro hmem
          rcases List.mem_cons.mp hmem with h1 | h2
          · exact hx h1.symm
          · exact ih h2
        | cons t ts =>
          rw [List.getLastD_cons] at ih ⊢
          exact ih

theorem splitOnChar_length_ge_two (c : Char) (l : List Char) (h : c ∈ l) :
    2 ≤ (splitOnChar c l).length := by
  induction l with
  | nil => cases h
  | cons x xs ih =>
    cases hs : splitOnChar c xs with
    | nil => exact absurd hs (splitOnChar_ne_nil c xs)
    | cons s ss =>
      by_cases hx : x = c
      · subst hx
        rw [splitOnChar_sep_cons, hs]
        simp
      · rw [splitOnChar_cons_ne c x xs hx s ss hs]
        have hm : c ∈ xs := by
          rcases List.mem_cons.mp h with h1 | h2
          · exact absurd h1.symm hx
          · exact h2
        have := ih hm
        rw [hs] at this
        simpa using this

theorem joinWith_data (sep : String) (c : Char) (hsep : sep.data = [c])
    (parts : List String) :
    (joinWith sep parts).data = joinChar c (parts.map String.data) := by
  induction parts with
  | nil => rfl
  | cons x xs ih =>
    cases xs with
    | nil => rfl
    | cons y ys =>
      show (x ++ sep ++ joinWith sep (y :: ys)).data = _
      rw [String.data_append, String.data_append, hsep, ih]
      simp [List.map_cons, joinChar_cons_cons]

theorem splitStr_not_mem (c : Char) (s : String) (h : c ∉ s.data) :
    splitStr c s = [s] := by
  unfold splitStr
  rw [splitOnChar_not_mem c s.data h]
  simp [stringMk_data]

theorem joinWith_splitStr (sep : String) (c : Char) (hsep : sep.data = [c])
    (s : String) :
    joinWith sep (splitStr c s) = s := by
  apply stringExt
  rw [joinWith_data sep c hsep]
  unfold splitStr
  rw [List.map_map]
  have hid : (String.data ∘ fun l : List Char => String.mk l) = id := by
    funext l
    rfl
  rw [hid, List.map_id]
  exact joinChar_splitOnChar c s.data

theorem getLastD_map {α β : Type} (f : α → β) (l : List α) (d : α) :
    (l.map f).getLastD (f d) = f (l.getLastD d) := by
  induction l generalizing d with
  | nil => rfl
  | cons x xs ih =>
    cases xs with
    | nil => rfl
    | cons y ys =>
      rw [List.map_cons, List.getLastD_cons, List.getLastD_cons]
      exact ih x

theorem extensionOf_eq_mk (s : String) :
    extensionOf s = String.mk ((splitOnChar '.' s.data).getLastD []) := by
  show (((splitOnChar '.' s.data).map (fun l => String.mk l)).getLastD "") = _
  exact getLastD_map (fun l => String.mk l) (splitOnChar '.' s.data) []

theorem dot_not_mem_extensionOf (s : String) : '.' ∉ (extensionOf s).data := by
  rw [extensionOf_eq_mk]
  exact splitOnChar_getLastD '.' s.data

theorem joinWith_append_singleton (sep : String) (xs : List String) (x : String)
    (h : xs ≠ []) :
    joinWith sep (xs ++ [x]) = joinWith sep xs ++ sep ++ x := by
  induction xs with
  | nil => exact absurd rfl h
  | cons a as ih =>
    cases as with
    | nil => rfl
    | cons b bs =>
      show a ++ sep ++ joinWith sep ((b :: bs) ++ [x]) =
        (a ++ sep ++ joinWith sep (b :: bs)) ++ sep ++ x
      rw [ih (by simp)]
      apply stringExt
      simp [String.data_append, List.append_assoc]

theorem splitFileName_ne_nil (s : String) : splitFileName s ≠ [] := by
  unfold splitFileName splitStr
  simp [splitOnChar_ne_nil]

theorem filename_reconstruct (s : String) (h : '.' ∈ s.data) :
    s = nameOf s ++ "." ++ extensionOf s := by
  have hlen := splitOnChar_length_ge_two '.' s.data h
  have hsne : splitFileName s ≠ [] := splitFileName_ne_nil s
  have hlen2 : 2 ≤ (splitFileName s).length := by
    unfold splitFileName splitStr
    simpa using hlen
  have hd : (splitFileName s).dropLast ≠ [] := by
    intro hnil
    have := congrArg List.length hnil
    rw [List.length_dropLast] at this
    simp at this
    omega
  have hgl : (splitFileName s).getLastD "" = (splitFileName s).getLast hsne := by
    rw [List.getLastD_eq_getLast?, List.getLast?_eq_getLast _ hsne]
    rfl
  have hrec : (splitFileName s).dropLast ++ [(splitFileName s).getLastD ""] =
      splitFileName s := by
    rw [hgl]
    exact List.dropLast_concat_getLast hsne
  calc s = joinWith "." (splitFileName s) := (joinWith_splitStr "." '.' rfl s).symm
    _ = joinWith "." ((splitFileName s).dropLast ++ [(splitFileName s).getLastD ""]) := by
        rw [hrec]
    _ = joinWith "." (splitFileName s).dropLast ++ "." ++ (splitFileName s).getLastD "" :=
        joinWith_append_singleton "." _ _ hd
    _ = nameOf s ++ "." ++ extensionOf s := rfl

theorem split_no_dot (s : String) (h : '.' ∉ s.data) :
    nameOf s = "" ∧ extensionOf s = s := by
  have h1 : splitFileName s = [s] := splitStr_not_mem '.' s h
  constructor
  · unfold nameOf
    rw [h1]
    rfl
  · unfold extensionOf
    rw [h1]
    rfl

theorem index_html_iff (s : String) :
    (nameOf s = "index" ∧ extensionOf s = "html") ↔ s = "index.html" := by
  constructor
  · rintro ⟨hn, he⟩
    by_cases hd : '.' ∈ s.data
    · have hr := filename_reconstruct s hd
      rw [hn, he] at hr
      rw [hr]
      rfl
    · obtain ⟨hn0, _⟩ := split_no_dot s hd
      rw [hn0] at hn
      exact absurd hn (by decide)
  · rintro rfl
    exact ⟨by decide, by decide⟩

/-- Claim C7 counterexample: a file named `html` (no dot) is bound by the
static binder with content type `text/html`, not `text/plain`: the code
takes the whole dotless filename as the extension. -/
theorem dotless_file_counterexample :
    (ServerShell.new.useStatic "static" "/" [FsEntry.file "html" "x"]).1 = none
  ∧ ((ServerShell.new.useStatic "static" "/" [FsEntry.file "html" "x"]).2.1.routes.map
      (fun rt => (rt.path, rt.method, rt.callback { method := "GET", path := "/html" }))) =
      [("/html", "GET",
        { body := some "x"
        , init := some { headers := [("Content-Type", "text/html")], status := 200 } })]
  ∧ extensionOf "html" = "html" ∧ MIMEFromExt "html" = "text/html" :=
  ⟨rfl, rfl, rfl, rfl⟩

/-- Claim C7 (amended): the static binder splits a filename on its last dot
when the name contains a dot (the extension piece is dot-free and the name
plus dot plus extension reassemble the filename); a filename with no dot
gets the entire filename as its extension and an empty name, so its content
type is `MIMEFromExt(filename)` — `text/plain` exactly when the whole
filename is not itself a known extension. -/
theorem splitFileName_semantics (s : String) :
    ('.' ∈ s.data →
      s = nameOf s ++ "." ++ extensionOf s ∧ '.' ∉ (extensionOf s).data)
  ∧ ('.' ∉ s.data →
      nameOf s = "" ∧ extensionOf s = s
      ∧ (s ∉ knownExtensions → MIMEFromExt (extensionOf s) = "text/plain")) :=
  ⟨fun h => ⟨filename_reconstruct s h, dot_not_mem_extensionOf s⟩,
   fun h =>
    ⟨(split_no_dot s h).1, (split_no_dot s h).2,
     fun hk => by rw [(split_no_dot s h).2]; exact MIMEFromExt_default s hk⟩⟩

theorem splitFileName_semantics_witness :
    ("archive.tar.gz" = nameOf "archive.tar.gz" ++ "." ++ extensionOf "archive.tar.gz"
      ∧ '.' ∉ (extensionOf "archive.tar.gz").data)
  ∧ (nameOf "README" = "" ∧ extensionOf "README" = "README"
      ∧ ("README" ∉ knownExtensions → MIMEFromExt (extensionOf "README") = "text/plain")) :=
  ⟨(splitFileName_semantics "archive.tar.gz").1 (by decide),
   (splitFileName_semantics "README").2 (by decide)⟩

/-! ## Posix path lemmas -/

theorem joinChar_append_last (c : Char) (ls : List (List Char)) (x : List Char)
    (hne : ls ≠ []) :
    joinChar c (ls ++ [x]) = joinChar c ls ++ c :: x := by
  induction ls with
  | nil => exact absurd rfl hne
  | cons l ls2 ih =>
    cases ls2 with
    | nil => rfl
    | cons m ms =>
      calc joinChar c ((l :: m :: ms) ++ [x])
          = l ++ c :: joinChar c (m :: (ms ++ [x])) := rfl
        _ = l ++ c :: joinChar c ((m :: ms) ++ [x]) := rfl
        _ = l ++ c :: (joinChar c (m :: ms) ++ c :: x) := by rw [ih (by simp)]
        _ = (l ++ c :: joinChar c (m :: ms)) ++ c :: x := by
            simp [List.append_assoc]

theorem joinChar_nil_cons (c : Char) (ls : List (List Char)) (hne : ls ≠ []) :
    joinChar c ([] :: ls) = c :: joinChar c ls := by
  cases ls with
  | nil => exact absurd rfl hne
  | cons l ls2 => rfl

theorem mkAbs_data (parts : List String) :
    (mkAbs parts).data = '/' :: (joinWith "/" parts).data := by
  unfold mkAbs
  rw [String.data_append]
  rfl

theorem mkAbs_ne_empty (parts : List String) : mkAbs parts ≠ "" := by
  intro h
  have hd := congrArg String.data h
  rw [mkAbs_data] at hd
  simp at hd

theorem joinWith_slash_mem (parts : List String) (ch : Char)
    (h : ch ∈ (joinWith "/" parts).data) :
    ch = '/' ∨ ∃ x ∈ parts, ch ∈ x.data := by
  induction parts with
  | nil => simp [joinWith] at h
  | cons a as ih =>
    cases as with
    | nil => exact Or.inr ⟨a, List.mem_cons_self a [], h⟩
    | cons b bs =>
      have hshow : joinWith "/" (a :: b :: bs) = a ++ "/" ++ joinWith "/" (b :: bs) := rfl
      rw [hshow, String.data_append, String.data_append] at h
      rcases List.mem_append.mp h with h1 | h2
      · rcases List.mem_append.mp h1 with h3 | h4
        · exact Or.inr ⟨a, List.mem_cons_self a (b :: bs), h3⟩
        · left
          simpa using h4
      · rcases ih h2 with h5 | ⟨x, hx, hmem⟩
        · exact Or.inl h5
        · exact Or.inr ⟨x, List.mem_cons_of_mem a hx, hmem⟩

theorem backslash_not_mem_mkAbs (parts : List String)
    (h : ∀ x ∈ parts, '\\' ∉ x.data) : '\\' ∉ (mkAbs parts).data := by
  rw [mkAbs_data]
  intro hmem
  rcases List.mem_cons.mp hmem with h1 | h2
  · exact absurd h1 (by decide)
  · rcases joinWith_slash_mem parts _ h2 with h3 | ⟨x, hx, hm⟩
    · exact absurd h3 (by decide)
    · exact h x hx hm

theorem replaceBackslashes_eq (s : String) (h : '\\' ∉ s.data) :
    replaceBackslashes s = s := by
  apply stringExt
  show s.data.map _ = s.data
  have key : ∀ l : List Char, '\\' ∉ l →
      l.map (fun c => if c = '\\' then '/' else c) = l := by
    intro l
    induction l with
    | nil => intro _; rfl
    | cons a l2 ih =>
      intro hl
      have ha : a ≠ '\\' := fun he => hl (he ▸ List.mem_cons_self a l2)
      have hl2 : '\\' ∉ l2 := fun hm => hl (List.mem_cons_of_mem a hm)
      rw [List.map_cons, ih hl2, if_neg ha]
  exact key s.data h

theorem map_mk_data (parts : List String) :
    List.map ((fun l => String.mk l) ∘ String.data) parts = parts := by
  induction parts with
  | nil => rfl
  | cons a as ih =>
    rw [List.map_cons, ih]
    rw [show ((fun l => String.mk l) ∘ String.data) a = String.mk a.data from rfl,
      stringMk_data]

theorem joinWith_slash_getLast (parts : List String) (hne : parts ≠ [])
    (h : ∀ x ∈ parts, x ≠ "" ∧ '/' ∉ x.data) :
    ∃ ch, (joinWith "/" parts).data.getLast? = some ch ∧ ch ≠ '/' := by
  induction parts with
  | nil => exact absurd rfl hne
  | cons a as ih =>
    cases as with
    | nil =>
      have ha := h a (List.mem_cons_self a [])
      have hd : a.data ≠ [] := data_ne_nil ha.1
      refine ⟨a.data.getLast hd, ?_, ?_⟩
      · show a.data.getLast? = _
        rw [List.getLast?_eq_getLast a.data hd]
      · intro heq
        exact ha.2 (heq ▸ List.getLast_mem hd)
    | cons b bs =>
      obtain ⟨ch, hch, hne2⟩ := ih (by simp)
        (fun x hx => h x (List.mem_cons_of_mem a hx))
      refine ⟨ch, ?_, hne2⟩
      show (a ++ "/" ++ joinWith "/" (b :: bs)).data.getLast? = some ch
      rw [String.data_append, List.getLast?_append, hch]
      rfl

theorem mkAbs_getLast (parts : List String) (hne : parts ≠ [])
    (h : ∀ x ∈ parts, x ≠ "" ∧ '/' ∉ x.data) :
    ∃ ch, (mkAbs parts).data.getLast? = some ch ∧ ch ≠ '/' := by
  obtain ⟨ch, hch, hn⟩ := joinWith_slash_getLast parts hne h
  refine ⟨ch, ?_, hn⟩
  rw [mkAbs_data,
    show '/' :: (joinWith "/" parts).data = ['/'] ++ (joinWith "/" parts).data from rfl,
    List.getLast?_append, hch]
  rfl

theorem segsOf_mkAbs (parts : List String) (hne : parts ≠ [])
    (h : ∀ x ∈ parts, '/' ∉ x.data) :
    segsOf (mkAbs parts) = "" :: parts := by
  unfold segsOf splitStr
  rw [mkAbs_data, splitOnChar_sep_cons, joinWith_data "/" '/' rfl,
    splitOnChar_joinChar '/' (parts.map String.data) (by simp [hne])
      (by intro x hx
          obtain ⟨y, hy, rfl⟩ := List.mem_map.mp hx
          exact h y hy)]
  rw [List.map_cons, List.map_map, map_mk_data]

theorem normStep_empty (ab : Bool) (acc : List String) : normStep ab acc "" = acc := rfl

theorem normStep_clean (ab : Bool) (acc : List String) (x : String)
    (h1 : x ≠ "") (h2 : x ≠ ".") (h3 : x ≠ "..") :
    normStep ab acc x = acc ++ [x] := by
  have e1 : (x == "") = false := beq_eq_false_iff_ne.mpr h1
  have e2 : (x == ".") = false := beq_eq_false_iff_ne.mpr h2
  have e3 : (x == "..") = false := beq_eq_false_iff_ne.mpr h3
  simp [normStep, e1, e2, e3]

theorem normStep_ddot (ab : Bool) (acc : List String) (hne : acc ≠ [])
    (hlast : acc.getLast? ≠ some "..") :
    normStep ab acc ".." = acc.dropLast := by
  unfold normStep
  rw [if_neg (by decide), if_pos (by decide), if_pos ⟨hne, hlast⟩]

theorem foldl_normStep_clean (ab : Bool) (segs : List String) (acc : List String)
    (h : ∀ x ∈ segs, x ≠ "" ∧ x ≠ "." ∧ x ≠ "..") :
    segs.foldl (normStep ab) acc = acc ++ segs := by
  induction segs generalizing acc with
  | nil => simp
  | cons x xs ih =>
    have hx := h x (List.mem_cons_self x xs)
    rw [List.foldl_cons, normStep_clean ab acc x hx.1 hx.2.1 hx.2.2,
      ih _ (fun z hz => h z (List.mem_cons_of_mem x hz))]
    simp

theorem normalize_abs (p : String) (hne : (p == "") = false)
    (h2 : (p.data.head? == some '/') = true)
    (h3 : (p.data.getLast? == some '/') = false) :
    normalize p = "/" ++ joinWith "/" ((segsOf p).foldl (normStep false) []) := by
  unfold normalize
  rw [hne]
  simp only [h2, h3, Bool.not_true, if_true, if_false, Bool.false_and, Bool.and_false]
  simp

theorem posixJoin_mkAbs (parts : List String) (b : String)
    (hparts : ∀ x ∈ parts, cleanSeg x) (hne : parts ≠ [])
    (hb1 : b ≠ "") (hb2 : '/' ∉ b.data) :
    posixJoin (mkAbs parts) b =
      "/" ++ joinWith "/" (("" :: (parts ++ [b])).foldl (normStep false) []) := by
  have e1 : (mkAbs parts == "") = false := beq_eq_false_iff_ne.mpr (mkAbs_ne_empty parts)
  have e2 : (b == "") = false := beq_eq_false_iff_ne.mpr hb1
  unfold posixJoin
  rw [e1, e2]
  simp only [Bool.false_eq_true, if_false]
  have hmapne : parts.map String.data ≠ [] := by simp [hne]
  have hSdata : (mkAbs parts ++ "/" ++ b).data =
      joinChar '/' (([] :: parts.map String.data) ++ [b.data]) := by
    rw [String.data_append, String.data_append, mkAbs_data, joinWith_data "/" '/' rfl,
      joinChar_append_last '/' _ _ (by simp), joinChar_nil_cons '/' _ hmapne]
    simp [List.append_assoc]
  have hS1 : ((mkAbs parts ++ "/" ++ b) == "") = false := by
    refine beq_eq_false_iff_ne.mpr (fun hS => ?_)
    have := congrArg String.data hS
    rw [String.data_append] at this
    simp [data_ne_nil hb1] at this
  have hS2 : ((mkAbs parts ++ "/" ++ b).data.head? == some '/') = true := by
    rw [hSdata, joinChar_append_last '/' ([] :: parts.map String.data) b.data (by simp),
      joinChar_nil_cons '/' (parts.map String.data) hmapne]
    rfl
  have hS3 : ((mkAbs parts ++ "/" ++ b).data.getLast? == some '/') = false := by
    rw [String.data_append, List.getLast?_append,
      List.getLast?_eq_getLast b.data (data_ne_nil hb1)]
    have hn : b.data.getLast (data_ne_nil hb1) ≠ '/' := by
      intro he
      exact hb2 (he ▸ List.getLast_mem (data_ne_nil hb1))
    simpa using hn
  rw [normalize_abs _ hS1 hS2 hS3]
  have hsegs : segsOf (mkAbs parts ++ "/" ++ b) = "" :: (parts ++ [b]) := by
    unfold segsOf splitStr
    rw [hSdata, splitOnChar_joinChar '/' _ (by simp)
      (by intro x hx
          rcases List.mem_cons.mp hx with h1 | h2
          · rw [h1]; simp
          · rcases List.mem_append.mp h2 with h3 | h4
            · obtain ⟨y, hy, rfl⟩ := List.mem_map.mp h3
              exact (hparts y hy).2.1
            · rw [List.mem_singleton.mp h4]; exact hb2)]
    rw [List.map_append, List.map_cons, List.map_map, map_mk_data,
      show List.map (fun l => String.mk l) [b.data] = [b] by
        rw [List.map_cons, List.map_nil, stringMk_data]]
    rfl
  rw [hsegs]

theorem posixJoin_mkAbs_clean (parts : List String) (b : String)
    (hparts : ∀ x ∈ parts, cleanSeg x) (hb : cleanSeg b) :
    posixJoin (mkAbs parts) b = mkAbs (parts ++ [b]) := by
  by_cases hne : parts = []
  · subst hne
    have hb1 : (b == "") = false := beq_eq_false_iff_ne.mpr hb.1
    show posixJoin (mkAbs []) b = mkAbs [b]
    have hroot : mkAbs [] = "/" := rfl
    rw [hroot]
    unfold posixJoin
    rw [hb1]
    simp only [Bool.false_eq_true, if_false,
      show (("/" : String) == "") = false from rfl]
    have hdd : ("/" ++ "/" ++ b).data = '/' :: '/' :: b.data := by
      rw [String.data_append, String.data_append]
      rfl
    have c1 : (("/" ++ "/" ++ b) == "") = false := by
      refine beq_eq_false_iff_ne.mpr (fun hS => ?_)
      have := congrArg String.data hS
      rw [hdd] at this
      simp at this
    have c2 : (("/" ++ "/" ++ b).data.head? == some '/') = true := by
      rw [hdd]
      rfl
    have c3 : (("/" ++ "/" ++ b).data.getLast? == some '/') = false := by
      rw [String.data_append, List.getLast?_append,
        List.getLast?_eq_getLast b.data (data_ne_nil hb.1)]
      have hn : b.data.getLast (data_ne_nil hb.1) ≠ '/' := by
        intro he
        exact hb.2.1 (he ▸ List.getLast_mem (data_ne_nil hb.1))
      simpa using hn
    rw [normalize_abs _ c1 c2 c3]
    have hsegs : segsOf ("/" ++ "/" ++ b) = ["", "", b] := by
      unfold segsOf splitStr
      rw [hdd, splitOnChar_sep_cons, splitOnChar_sep_cons,
        splitOnChar_not_mem '/' b.data hb.2.1]
      simp [stringMk_data]
    rw [hsegs]
    rw [show (["", "", b].foldl (normStep false) []) =
      [b].foldl (normStep false) [] from rfl]
    rw [List.foldl_cons, List.foldl_nil,
      normStep_clean false [] b hb.1 hb.2.2.2.1 hb.2.2.2.2]
    rfl
  · rw [posixJoin_mkAbs parts b hparts hne hb.1 hb.2.1, List.foldl_cons, normStep_empty,
      foldl_normStep_clean false _ []
        (by intro x hx
            rcases List.mem_append.mp hx with h1 | h2
            · exact ⟨(hparts x h1).1, (hparts x h1).2.2.2.1, (hparts x h1).2.2.2.2⟩
            · rw [List.mem_singleton.mp h2]
              exact ⟨hb.1, hb.2.2.2.1, hb.2.2.2.2⟩)]
    rfl

theorem posixJoin_mkAbs_parent (parts : List String)
    (hparts : ∀ x ∈ parts, cleanSeg x) (hne : parts ≠ []) :
    posixJoin (mkAbs parts) ".." = mkAbs parts.dropLast := by
  rw [posixJoin_mkAbs parts ".." hparts hne (by decide) (by decide),
    List.foldl_cons, normStep_empty, List.foldl_append,
    foldl_normStep_clean false parts []
      (fun x hx => ⟨(hparts x hx).1, (hparts x hx).2.2.2.1, (hparts x hx).2.2.2.2⟩)]
  have hlast : ([] ++ parts).getLast? ≠ some ".." := by
    simp only [List.nil_append]
    intro h
    exact (hparts ".." (List.mem_of_getLast?_eq_some h)).2.2.2.2 rfl
  rw [show List.foldl (normStep false) ([] ++ parts) [".."] =
    normStep false ([] ++ parts) ".." from rfl,
    normStep_ddot false _ (by simp [hne]) hlast]
  simp only [List.nil_append]
  rfl

/-! ## Static-route derivation -/

theorem index_html_cond (fn : String) :
    (nameOf fn == "index" && extensionOf fn == "html") = true ↔ fn = "index.html" := by
  rw [Bool.and_eq_true, beq_iff_eq, beq_iff_eq]
  exact index_html_iff fn

theorem staticRouteFor_clean (P : List String) (fn : String)
    (hP : ∀ x ∈ P, cleanSeg x) (hfn : cleanSeg fn) :
    staticRouteFor (mkAbs P) fn =
      if fn = "index.html" then mkAbs P else mkAbs (P ++ [fn]) := by
  unfold staticRouteFor
  by_cases hidx : fn = "index.html"
  · rw [if_pos hidx, if_pos ((index_html_cond fn).mpr hidx), hidx,
      posixJoin_mkAbs_clean P "index.html" hP (by constructor <;> simp),
      posixJoin_mkAbs_parent (P ++ ["index.html"])
        (by intro x hx
            rcases List.mem_append.mp hx with h1 | h2
            · exact hP x h1
            · rw [List.mem_singleton.mp h2]
              constructor <;> simp)
        (by simp),
      List.dropLast_concat]
    exact replaceBackslashes_eq (mkAbs P)
      (backslash_not_mem_mkAbs P (fun x hx => (hP x hx).2.2.1))
  · rw [if_neg hidx,
      if_neg (fun hc => hidx ((index_html_cond fn).mp hc)),
      posixJoin_mkAbs_clean P fn hP hfn]
    exact replaceBackslashes_eq (mkAbs (P ++ [fn]))
      (backslash_not_mem_mkAbs (P ++ [fn])
        (by intro x hx
            rcases List.mem_append.mp hx with h1 | h2
            · exact (hP x h1).2.2.1
            · rw [List.mem_singleton.mp h2]
              exact hfn.2.2.1))

theorem get_new_routes (p : String) (l : Handler) :
    (ServerShell.get ServerShell.new p l).2.routes =
      [{ path := p, method := "GET", callback := l }] := rfl

theorem bindEntries_single (s : ServerShell) (d r : String) (e : FsEntry) :
    (bindEntries s d r [e]).2.1 = (bindEntry s d r e).2.1 := by
  simp only [bindEntries]
  rcases hbe : bindEntry s d r e with ⟨err, s1, reads⟩
  cases err with
  | some msg => rfl
  | none => rfl

/-- Claim C6: the static binder derives each file's route as the route
prefix joined with the file's relative path in the tree — forward-slash
separated, with the filename (extension included) as the last segment — and
a file named exactly `index.html` is instead bound to the parent route
path. -/
theorem static_binding_route (dirs : List String) :
    ∀ (P : List String) (fn contents dfs : String),
    (∀ x ∈ P, cleanSeg x) → (∀ x ∈ dirs, cleanSeg x) → cleanSeg fn →
    ((bindEntry ServerShell.new dfs (mkAbs P)
        (nestDirs dirs (FsEntry.file fn contents))).2.1).routes.map
      (fun rt => (rt.path, rt.method)) =
    [((if fn = "index.html" then mkAbs (P ++ dirs) else mkAbs ((P ++ dirs) ++ [fn])),
      "GET")] := by
  induction dirs with
  | nil =>
    intro P fn contents dfs hP _ hfn
    show ((ServerShell.get ServerShell.new (staticRouteFor (mkAbs P) fn)
      (fun _ => staticPayload contents (extensionOf fn))).2).routes.map _ = _
    rw [get_new_routes, List.map_cons, List.map_nil, staticRouteFor_clean P fn hP hfn]
    simp
  | cons d ds ih =>
    intro P fn contents dfs hP hdirs hfn
    show ((bindEntries ServerShell.new (posixJoin dfs d) (posixJoin (mkAbs P) d)
      [nestDirs ds (FsEntry.file fn contents)]).2.1).routes.map _ = _
    rw [bindEntries_single, posixJoin_mkAbs_clean P d hP (hdirs d (List.mem_cons_self d ds))]
    have hres := ih (P ++ [d]) fn contents (posixJoin dfs d)
      (by intro x hx
          rcases List.mem_append.mp hx with h1 | h2
          · exact hP x h1
          · rw [List.mem_singleton.mp h2]
            exact hdirs d (List.mem_cons_self d ds))
      (fun x hx => hdirs x (List.mem_cons_of_mem d hx)) hfn
    rw [hres]
    have hl : (P ++ [d]) ++ ds = P ++ (d :: ds) := by simp
    rw [hl]

theorem static_binding_route_witness :
    ((bindEntry ServerShell.new "static" (mkAbs ["sub"])
        (nestDirs [] (FsEntry.file "index.html" "hello"))).2.1).routes.map
      (fun rt => (rt.path, rt.method)) = [("/sub", "GET")] := by
  rw [static_binding_route [] ["sub"] "index.html" "hello" "static"
    (by intro x hx; rw [List.mem_singleton.mp hx]; constructor <;> simp)
    (by intro x hx; cases hx)
    (by constructor <;> simp)]
  rfl

/-! ## Static binding: reads and registered handlers -/

mutual

theorem bindEntry_run (s : ServerShell) (d r : String) (e : FsEntry)
    (h : (bindEntry s d r e).1 = none) :
    (bindEntry s d r e).2.2 = fileReadsOfEntry d e ∧
    ∀ req : Request, ((bindEntry s d r e).2.1).routes.map (routeView req) =
      s.routes.map (routeView req) ++
        (staticFilesOfEntry r e).map
          (fun t => (t.1, "GET", staticPayload t.2.1 t.2.2)) := by
  cases e with
  | file name contents =>
    by_cases hc : (s.routes.any fun route => route.path == staticRouteFor r name &&
        (route.method == "GET" || route.method == "ANY")) = true
    · exfalso
      have hsome : (bindEntry s d r (FsEntry.file name contents)).1 =
          some { route := staticRouteFor r name } := by
        show (ServerShell.get s (staticRouteFor r name)
          (fun _ => staticPayload contents (extensionOf name))).1 = _
        unfold ServerShell.get
        rw [if_pos hc]
      rw [hsome] at h
      cases h
    · constructor
      · rfl
      · intro req
        show (ServerShell.get s (staticRouteFor r name)
          (fun _ => staticPayload contents (extensionOf name))).2.routes.map _ = _
        unfold ServerShell.get
        rw [if_neg hc]
        simp [routeView, staticFilesOfEntry]
  | dir name entries =>
    exact bindEntries_run s (posixJoin d name) (posixJoin r name) entries h

theorem bindEntries_run (s : ServerShell) (d r : String) (es : List FsEntry)
    (h : (bindEntries s d r es).1 = none) :
    (bindEntries s d r es).2.2 = fileReadsOf d es ∧
    ∀ req : Request, ((bindEntries s d r es).2.1).routes.map (routeView req) =
      s.routes.map (routeView req) ++
        (staticFilesOf r es).map
          (fun t => (t.1, "GET", staticPayload t.2.1 t.2.2)) := by
  cases es with
  | nil =>
    refine ⟨rfl, fun req => ?_⟩
    show List.map (routeView req) s.routes = _
    simp [staticFilesOf]
  | cons e rest =>
    simp only [bindEntries] at h ⊢
    rcases hbe : bindEntry s d r e with ⟨err, s1, reads⟩
    rw [hbe] at h
    cases err with
    | some msg => exact absurd h (by simp)
    | none =>
      have hrest : (bindEntries s1 d r rest).1 = none := h
      obtain ⟨he1, he2⟩ := bindEntry_run s d r e (by rw [hbe])
      rw [hbe] at he1 he2
      dsimp only at he1 he2
      obtain ⟨hr1, hr2⟩ := bindEntries_run s1 d r rest hrest
      constructor
      · show reads ++ (bindEntries s1 d r rest).2.2 = _
        rw [hr1, he1]
        rfl
      · intro req
        show ((bindEntries s1 d r rest).2.1).routes.map (routeView req) = _
        rw [hr2 req, he2 req]
        simp [staticFilesOf, List.append_assoc]

end

/-- Claim C9: on an error-free static bind, each discovered regular file is
read exactly once at bind time (the read trace lists each file's filesystem
path exactly once, in walk order), and the bindings added to the table are
`GET` bindings whose handlers ignore the inbound request and always return
the captured bind-time contents with status 200 and the
`MIMEFromExt`-derived content type. -/
theorem useStatic_reads_and_bindings (s : ServerShell) (d r : String)
    (listing : List FsEntry)
    (h : (s.useStatic d r listing).1 = none) :
    (s.useStatic d r listing).2.2 = fileReadsOf d listing ∧
    ∀ req : Request, ((s.useStatic d r listing).2.1).routes.map (routeView req) =
      s.routes.map (routeView req) ++
        (staticFilesOf r listing).map
          (fun t => (t.1, "GET", staticPayload t.2.1 t.2.2)) :=
  bindEntries_run s d r listing h

theorem useStatic_reads_and_bindings_witness :
    (ServerShell.new.useStatic "st" "/s"
      [FsEntry.dir "a" [FsEntry.file "index.html" "hi"], FsEntry.file "b.png" "img"]).2.2 =
      ["st/a/index.html", "st/b.png"]
  ∧ ((ServerShell.new.useStatic "st" "/s"
      [FsEntry.dir "a" [FsEntry.file "index.html" "hi"], FsEntry.file "b.png" "img"]).2.1).routes.map
        (routeView { method := "GET", path := "/s/a" }) =
      [("/s/a", "GET", staticPayload "hi" "html"),
       ("/s/b.png", "GET", staticPayload "img" "png")] := by
  have hrun := useStatic_reads_and_bindings ServerShell.new "st" "/s"
    [FsEntry.dir "a" [FsEntry.file "index.html" "hi"], FsEntry.file "b.png" "img"]
    (by decide)
  exact ⟨hrun.1.trans (by decide),
    (hrun.2 { method := "GET", path := "/s/a" }).trans (by decide)⟩

end TSMShell
